import Mathlib

/-!
Verification of the discord-mcp scraping engine against its specification.

The Python/JavaScript source is shallowly embedded: strings are `List Char`,
Python `datetime` values are `Int` timestamps (only their total order is
used), DOM state read by the browser is passed in as explicit input data,
and fallible operations return `Except`.
-/

set_option maxRecDepth 8000

namespace Discord

/-- Python / JavaScript strings are modelled as lists of characters. -/
abbrev Str := List Char

/-- Conversion from a Lean string literal to the model's string type. -/
def lit (s : String) : Str := s.toList

/-- Python lexicographic string comparison `a < b` on code points. -/
def pyStrLt : Str → Str → Bool
  | [], [] => false
  | [], _ :: _ => true
  | _ :: _, [] => false
  | a :: as, b :: bs => if a < b then true else if b < a then false else pyStrLt as bs

/-- Whitespace test used to model Python's `str.strip` / JS `trim` and the
whitespace character classes of the regexes in the source. -/
def wsChar (c : Char) : Bool := c.isWhitespace

/-- Non-whitespace content of a string: every whitespace character removed. -/
def nonWs (s : Str) : Str := s.filter (fun c => !wsChar c)

/-- JS `String.trim`: drop whitespace from both ends. -/
def jsTrim (s : Str) : Str :=
  ((s.dropWhile wsChar).reverse.dropWhile wsChar).reverse

/-! ## close_client (client.py lines 160-179)

The four closable resources of a `ClientState` and the teardown loop.  An
individual `close()` / `stop()` call either succeeds or raises; the loop
wraps every call in `try/except Exception: pass`. -/

/-- One closable resource; `raises` says whether its close call raises. -/
structure Resource where
  raises : Bool

/-- The `page`, `context`, `browser`, `playwright` fields of `ClientState`;
`none` models a field that is still `None`. -/
structure SessionResources where
  page : Option Resource
  context : Option Resource
  browser : Option Resource
  playwright : Option Resource

/-- Labels for the four teardown steps, in reverse-acquisition order. -/
inductive CloseStep
  | page
  | ctx
  | browser
  | playwright
deriving DecidableEq, Repr

/-- Python `if resource: await getattr(resource, action)()`: skipped when the
field is `None`, otherwise the close call may raise. -/
def attemptClose (r : Option Resource) : Except Unit Unit :=
  match r with
  | none => .ok ()
  | some res => if res.raises then .error () else .ok ()

/-- Python `try: ... except Exception: pass` around one close attempt. -/
def swallow (e : Except Unit Unit) : Except Unit Unit :=
  match e with
  | .ok _ => .ok ()
  | .error _ => .ok ()

/-- The teardown loop of `close_client`: each listed resource is attempted in
order, each attempt's failure swallowed; the returned trace records the steps
that actually ran (a step only appears once its swallowed attempt finished and
the loop continued past it). -/
def closeSeq : List (CloseStep × Option Resource) → Except Unit (List CloseStep)
  | [] => .ok []
  | (step, r) :: rest =>
    match swallow (attemptClose r) with
    | .error e => .error e
    | .ok _ =>
      match closeSeq rest with
      | .error e => .error e
      | .ok tail => .ok (step :: tail)

/-- `close_client` (client.py lines 160-174): close page, then context, then
browser, then stop playwright. -/
def close_client (s : SessionResources) : Except Unit (List CloseStep) :=
  closeSeq
    [(.page, s.page), (.ctx, s.context), (.browser, s.browser), (.playwright, s.playwright)]

/-! ## Context-window slicing (client.py lines 990-997) -/

/-- Python list slice `l[a:b]` for non-negative bounds. -/
def pySlice (l : List α) (a b : Nat) : List α := (l.take b).drop a

/-- The before/after window computation of `get_search_result_context`
(client.py lines 990-997): `before_start = max(0, target_idx - before_count)`,
`after_end = min(len(messages_data), target_idx + after_count + 1)`, then
`messages_data[before_start:target_idx]`, `messages_data[target_idx]`, and
`messages_data[target_idx + 1:after_end]`. -/
def context_slice (l : List α) (target_idx before_count after_count : Nat) :
    List α × Option α × List α :=
  let before_start : Int := max 0 ((target_idx : Int) - (before_count : Int))
  let after_end : Int :=
    min (l.length : Int) ((target_idx : Int) + (after_count : Int) + 1)
  (pySlice l before_start.toNat target_idx,
   l.get? target_idx,
   pySlice l (target_idx + 1) after_end.toNat)

end Discord

namespace Discord

/-! ## Channel extraction and merge (client.py lines 282-373) -/

/-- A channel record produced by `extract_channels_js`. -/
structure RawChannel where
  id : Str
  name : Str
  href : Str
deriving DecidableEq, Repr

/-- The ids the first merge loop stores as dictionary keys
(`all_channels[ch["id"]] = ch` over the direct set). -/
def directIds (original : List RawChannel) : List Str := original.map (·.id)

/-- The merge of `get_guild_channels` (client.py lines 352-365): the direct
set is appended first in encounter order, then every browse-set entry whose id
is not a key of the dictionary built from the direct set. -/
def combine_channels (original browse : List RawChannel) : List RawChannel :=
  original ++ browse.filter (fun ch => decide (ch.id ∉ directIds original))

/-- An anchor element considered by `extract_channels_js`: its `href` and its
`textContent`. -/
structure RawLink where
  href : Str
  text : Str
deriving DecidableEq, Repr

/-- Test of JS regex match at the start of `s`: the literal pattern `pat`
followed by a non-empty digit run (`[0-9]+`, greedy), returning the digits. -/
def matchChannelAt (pat s : Str) : Option Str :=
  if pat.isPrefixOf s then
    let rest := s.drop pat.length
    let digits := rest.takeWhile Char.isDigit
    if digits = [] then none else some digits
  else none

/-- Leftmost match of `link.href.match(/\/channels\/{guild_id}\/([0-9]+)/)`
(client.py line 303): the guild id is interpolated literally into the regex,
so the pattern is the literal `/channels/<gid>/` followed by digits. -/
def findChannelId (pat : Str) : Str → Option Str
  | [] => none
  | c :: rest =>
    match matchChannelAt pat (c :: rest) with
    | some d => some d
    | none => findChannelId pat rest

/-- Membership in the character class `[a-zA-Z0-9#-_]` of the regex at
client.py line 309; note `#-_` is a character range from `#` (35) to `_`
(95). -/
def channelNameKeep (c : Char) : Bool :=
  ('a' ≤ c && c ≤ 'z') || ('A' ≤ c && c ≤ 'Z') || ('0' ≤ c && c ≤ '9') ||
    ('#' ≤ c && c ≤ '_')

/-- JS `replace(/\s+/g, ' ')`: every maximal whitespace run becomes one
space.  The boolean argument records whether the previous character was part
of a whitespace run. -/
def collapseWsGo : Bool → Str → Str
  | _, [] => []
  | prevWs, c :: rest =>
    if wsChar c then
      if prevWs then collapseWsGo true rest
      else ' ' :: collapseWsGo true rest
    else c :: collapseWsGo false rest

/-- JS `replace(/\s+/g, ' ')` on a whole string. -/
def collapseWs (s : Str) : Str := collapseWsGo false s

/-- Name cleanup of `extract_channels_js` (client.py lines 308-310):
`textContent.trim()`, strip the leading run of characters outside
`[a-zA-Z0-9#-_]` and trim, collapse whitespace runs and trim. -/
def cleanLinkText (t : Str) : Str :=
  let n1 := jsTrim t
  let n2 := jsTrim (n1.dropWhile (fun c => !channelNameKeep c))
  jsTrim (collapseWs n2)

/-- One step of the `links.forEach` loop of `extract_channels_js` (client.py
lines 302-318), threading the accumulated channel list and the `seenIds`
set.  When the cleaned link text is empty the name `channel-<id>` is
synthesized (`name: name || \x7bchannel-$\x7bchannelId\x7d\x7d`). -/
def extractChannelStep (pat : Str) (acc : List RawChannel × List Str)
    (link : RawLink) : List RawChannel × List Str :=
  match findChannelId pat link.href with
  | none => acc
  | some channelId =>
    if channelId ∈ acc.2 then acc
    else
      let name0 := cleanLinkText link.text
      let name := if name0 = [] then lit "channel-" ++ channelId else name0
      (acc.1 ++ [⟨channelId, name, link.href⟩], acc.2 ++ [channelId])

/-- The in-page script `extract_channels_js` (client.py lines 295-321) run on
the anchors currently in the DOM. -/
def extract_channels (gid : Str) (links : List RawLink) : List RawChannel :=
  (links.foldl (extractChannelStep (lit "/channels/" ++ gid ++ ['/'])) ([], [])).1

/-- A channel as returned by `get_guild_channels` (client.py lines 368-371). -/
structure DiscordChannel where
  id : Str
  name : Str
  type : Nat
  guild_id : Option Str
deriving DecidableEq, Repr

/-- `get_guild_channels` (client.py lines 282-373) as a function of the DOM
anchors seen by the two extraction passes (the direct pass and the Browse
Channels pass; a failed browse pass is the `browseLinks = []` case). -/
def get_guild_channels_model (gid : Str) (directLinks browseLinks : List RawLink) :
    List DiscordChannel :=
  (combine_channels (extract_channels gid directLinks)
      (extract_channels gid browseLinks)).map
    (fun ch => ⟨ch.id, ch.name, 0, some gid⟩)

/-! ## Guild extraction (client.py lines 227-277) -/

/-- A `[role="treeitem"]` node of the guild navigation rail as seen by the
extraction script: its `data-list-item-id` attribute, the trimmed text of its
descendant elements in document order, and its own full text. -/
structure TreeItem where
  listItemId : Option Str
  descendantTexts : List Str
  fullText : Str

/-- A guild record produced by the extraction script. -/
structure RawGuild where
  id : Str
  name : Str
deriving DecidableEq, Repr

/-- JS regex test `/^[0-9]+$/.test(s)`: non-empty and all digits. -/
def isDigits (s : Str) : Bool := !s.isEmpty && s.all Char.isDigit

/-- Search for `sub` as a contiguous substring starting at any position. -/
def hasSubstr (sub : Str) : Str → Bool
  | [] => sub.isEmpty
  | c :: rest => sub.isPrefixOf (c :: rest) || hasSubstr sub rest

/-- Substring test, JS `a.includes(b)`. -/
def strIncludes (s sub : Str) : Bool := hasSubstr sub s

/-- JS `replace(/^\d+\s+mentions?,\s*/, '')` (client.py lines 253 and 259):
strip a leading digit run, whitespace, the word `mention` with an optional
`s`, a comma, and trailing whitespace; the string is unchanged when the
pattern does not match at the start. -/
def stripMentionCount (s : Str) : Str :=
  let d := s.takeWhile Char.isDigit
  let r1 := s.dropWhile Char.isDigit
  if d = [] then s
  else
    let w := r1.takeWhile wsChar
    let r2 := r1.dropWhile wsChar
    if w = [] then s
    else if (lit "mention").isPrefixOf r2 then
      let r3 := r2.drop 7
      let r4 := match r3 with
        | 's' :: t => t
        | _ => r3
      match r4 with
      | ',' :: r5 => r5.dropWhile wsChar
      | _ => s
    else s

/-- The descendant-text scan of the guild extraction script (client.py lines
239-248): the first trimmed descendant text that is non-empty, longer than 2
and shorter than 100 characters, contains neither `notification` nor
`unread`, and is not a bare number. -/
def guildNameScan (texts : List Str) : Option Str :=
  texts.findSome? fun raw =>
    let text := jsTrim raw
    if !text.isEmpty && decide (2 < text.length) && decide (text.length < 100) &&
        !strIncludes text (lit "notification") && !strIncludes text (lit "unread") &&
        !isDigits text
    then some text else none

/-- The guild-name derivation (client.py lines 238-260): the descendant scan,
else the cleaned full text; the surviving name is stripped of a mention-count
marker once more.  The empty string models JS `null` (both are falsy at every
use site). -/
def guildNameOf (item : TreeItem) : Str :=
  let g0 : Str :=
    match guildNameScan item.descendantTexts with
    | some n => n
    | none =>
      let fullText := jsTrim item.fullText
      if fullText = [] then []
      else jsTrim (collapseWs (stripMentionCount fullText))
  if g0 = [] then [] else jsTrim (stripMentionCount g0)

/-- One step of the `treeItems.forEach` loop of the guild extraction script
(client.py lines 232-267): keep items whose `data-list-item-id` starts with
`guildsnav___` and is not the home entry, require an all-digit id, derive a
name, and push unless the id was already collected. -/
def guildsStep (guilds : List RawGuild) (item : TreeItem) : List RawGuild :=
  match item.listItemId with
  | none => guilds
  | some lid =>
    if (lit "guildsnav___").isPrefixOf lid && lid ≠ lit "guildsnav___home" then
      let guildId := lid.drop (lit "guildsnav___").length
      if isDigits guildId then
        let name := guildNameOf item
        if name ≠ [] && !guilds.any (fun g => g.id == guildId) then
          guilds ++ [⟨guildId, name⟩]
        else guilds
      else guilds
    else guilds

/-- The guild extraction script of `get_guilds` (client.py lines 227-271) as
a function of the tree items currently in the DOM. -/
def get_guilds_extract (items : List TreeItem) : List RawGuild :=
  items.foldl guildsStep []

/-! ## Search-result accumulation and deduplication (client.py lines 689-811) -/

/-- A record synthesized by the in-page search extraction script (client.py
lines 695-753); only records with non-empty content are pushed by the script,
but nothing below depends on that. -/
structure RawResult where
  author : Str
  content : Str
  timestamp : Str
  channel : Str
deriving DecidableEq, Repr

/-- The Python composite key
`content_key = f"\x7bresult['author']\x7d:\x7bresult['content'][:50] ...\x7d"`
(client.py line 760). -/
def contentKey (r : RawResult) : Str := r.author ++ ':' :: r.content.take 50

/-- A message assembled from a search result (client.py lines 776-787); only
the fields the dedup claim mentions are kept, plus the synthesized positional
id. -/
structure SearchMsg where
  id : Str
  content : Str
  author_name : Str
deriving DecidableEq, Repr

/-- Decimal rendering of a number, for the synthesized ids
`search-<position>`. -/
def natToStr (n : Nat) : Str := (Nat.repr n).toList

/-- The `for result in results_data` body (client.py lines 755-787): stop at
the limit, skip keys already in `seen_content`, otherwise record the key and
append a message with a synthesized positional id. -/
def searchBatchStep (limit : Nat) :
    List RawResult → List SearchMsg → List Str → List SearchMsg × List Str
  | [], msgs, seen => (msgs, seen)
  | r :: rest, msgs, seen =>
    if limit ≤ msgs.length then (msgs, seen)
    else if contentKey r ∈ seen then searchBatchStep limit rest msgs seen
    else
      searchBatchStep limit rest
        (msgs ++ [⟨lit "search-" ++ natToStr msgs.length, r.content, r.author⟩])
        (seen ++ [contentKey r])

/-- The scroll-and-extract `while` loop of `search_messages` (client.py lines
694-808): up to `max_scrolls = 5` rounds, each extracting the records the DOM
holds at that round (`eval k`), stopping early once the limit is reached. -/
def searchLoop (limit : Nat) (eval : Nat → List RawResult) :
    Nat → List SearchMsg → List Str → List SearchMsg
  | k, msgs, seen =>
    if h : limit ≤ msgs.length ∨ 5 ≤ k then msgs
    else
      let (msgs', seen') := searchBatchStep limit (eval k) msgs seen
      if limit ≤ msgs'.length then msgs'
      else searchLoop limit eval (k + 1) msgs' seen'
termination_by k => 5 - k
decreasing_by omega

/-- The result list of `search_messages` (client.py line 811):
`messages[:limit]` after the accumulation loop. -/
def search_messages_result (limit : Nat) (eval : Nat → List RawResult) :
    List SearchMsg :=
  (searchLoop limit eval 0 [] []).take limit

/-! ## Search-page navigation (client.py lines 532-575) -/

/-- The page state `_navigate_to_search_page` interacts with: whether a direct
`Page N` button is present and visible, whether an ellipsis control is
present and visible, whether a numeric input appears after clicking the
ellipsis, and whether the `Next` button is present and visible at the k-th
query (k clicks of `Next` done so far). -/
structure SearchPage where
  pageButtonVisible : Nat → Bool
  ellipsisVisible : Bool
  inputPresent : Bool
  nextVisible : Nat → Bool

/-- Observable interactions of `_navigate_to_search_page` with the page. -/
inductive NavAction
  | clickPageButton (n : Nat)
  | clickEllipsis
  | fillPageInput (n : Nat)
  | clickNext
deriving DecidableEq, Repr

/-- Method 3 of `_navigate_to_search_page` (client.py lines 567-575): click
`Next` once per remaining page, returning `false` as soon as the button is
absent or invisible. -/
def nextClickLoop (pg : SearchPage) : Nat → Nat → Bool × List NavAction
  | _, 0 => (true, [])
  | clicks, rem + 1 =>
    if pg.nextVisible clicks then
      let (ok, acts) := nextClickLoop pg (clicks + 1) rem
      (ok, .clickNext :: acts)
    else (false, [])

/-- `_navigate_to_search_page` (client.py lines 532-575): page 1 needs no
interaction; then a direct `Page N` button, then the ellipsis control (whose
click happens before the input is looked up, and which falls through to the
`Next` loop when no input appears), then sequential `Next` clicks. -/
def navigate_to_search_page (pg : SearchPage) (target : Nat) : Bool × List NavAction :=
  if target = 1 then (true, [])
  else if pg.pageButtonVisible target then (true, [.clickPageButton target])
  else if pg.ellipsisVisible then
    if pg.inputPresent then (true, [.clickEllipsis, .fillPageInput target])
    else
      let (ok, acts) := nextClickLoop pg 0 (target - 1)
      (ok, .clickEllipsis :: acts)
  else
    let (ok, acts) := nextClickLoop pg 0 (target - 1)
    (ok, acts)

/-! ## Channel message history (client.py lines 434-494) -/

/-- A message as assembled by `_extract_message_data` (client.py lines
376-431); the timestamp is an integer stand-in for the totally ordered
`datetime` values. -/
structure PyMsg where
  id : Str
  content : Str
  author_name : Str
  timestamp : Int
deriving DecidableEq, Repr

/-- Python `if before and message.id >= before: continue` (client.py line
480): the bound must be truthy (not `None`, non-empty) and the id not below
it. -/
def beforeSkip (before : Option Str) (id : Str) : Bool :=
  match before with
  | none => false
  | some b => !b.isEmpty && !pyStrLt id b

/-- Python `if after and message.id <= after: continue` (client.py line
482). -/
def afterSkip (after : Option Str) (id : Str) : Bool :=
  match after with
  | none => false
  | some a => !a.isEmpty && !pyStrLt a id

/-- The `for element in reversed(elements)` walk (client.py lines 472-487):
stop at the limit, drop extraction failures (`none`), drop ids already seen,
apply the before/after bound filters, then record the id and keep the
message.  The input list is already reversed. -/
def innerWalk (limit : Nat) (before after : Option Str) :
    List (Option PyMsg) → List PyMsg → List Str → List PyMsg × List Str
  | [], msgs, seen => (msgs, seen)
  | e :: rest, msgs, seen =>
    if limit ≤ msgs.length then (msgs, seen)
    else
      match e with
      | none => innerWalk limit before after rest msgs seen
      | some m =>
        if m.id ∈ seen then innerWalk limit before after rest msgs seen
        else if beforeSkip before m.id then innerWalk limit before after rest msgs seen
        else if afterSkip after m.id then innerWalk limit before after rest msgs seen
        else innerWalk limit before after rest (msgs ++ [m]) (seen ++ [m.id])

/-- The `for attempt in range(10)` loop (client.py lines 463-492): each
attempt sees the extraction results of the currently rendered message nodes
(one snapshot per attempt, newest last, hence the `reverse`); an empty
snapshot only triggers a page-up, and the loop stops once the limit is
reached. -/
def messagesLoop (limit : Nat) (before after : Option Str) :
    List (List (Option PyMsg)) → List PyMsg → List Str → List PyMsg
  | [], msgs, _ => msgs
  | elems :: rest, msgs, seen =>
    if elems.isEmpty then messagesLoop limit before after rest msgs seen
    else
      let (msgs', seen') := innerWalk limit before after elems.reverse msgs seen
      if limit ≤ msgs'.length then msgs'
      else messagesLoop limit before after rest msgs' seen'

/-- Stable insertion of a message into a list sorted by timestamp descending:
the new message goes before the first strictly older entry, after entries of
equal timestamp. -/
def insertByTsDesc (m : PyMsg) : List PyMsg → List PyMsg
  | [] => [m]
  | x :: xs =>
    if x.timestamp ≤ m.timestamp then m :: x :: xs else x :: insertByTsDesc m xs

/-- Python `sorted(messages, key=lambda m: m.timestamp, reverse=True)`
(client.py line 494).  Python's sort is stable, so any stable descending sort
computes the same list; a stable insertion sort is used here. -/
def pySortByTsDesc (l : List PyMsg) : List PyMsg := l.foldr insertByTsDesc []

/-- The result of `get_channel_messages` (client.py lines 434-494) as a
function of the per-attempt extraction snapshots: collect across at most 10
attempts, sort by timestamp descending, truncate to the limit. -/
def get_channel_messages_result (limit : Nat) (before after : Option Str)
    (snapshots : List (List (Option PyMsg))) : List PyMsg :=
  (pySortByTsDesc (messagesLoop limit before after (snapshots.take 10) [] [])).take limit

/-! ## Send-message chunking (server.py lines 175-224) -/

/-- The newline separator of the line-splitting pass. -/
def NL : Char := '\n'

/-- The space separator of the word-splitting pass. -/
def SP : Char := ' '

/-- Python `s.split(sep)` for a one-character separator, as first piece plus
remaining pieces (so the result is never empty; `"".split(sep) == [""]`). -/
def pySplitNE (sep : Char) : Str → Str × List Str
  | [] => ([], [])
  | c :: rest =>
    let (h, t) := pySplitNE sep rest
    if c = sep then ([], h :: t) else (c :: h, t)

/-- Python `s.split(sep)` for a one-character separator. -/
def pySplit (sep : Char) (s : Str) : List Str :=
  let (h, t) := pySplitNE sep s
  h :: t

/-- The repeated flush pattern of the chunking code (server.py lines 194-202,
207-214 and 217-221): extend the current chunk with `"\n" + current_line`
when that stays within 2000 characters (dropping the newline when the chunk
is still empty), otherwise emit the chunk and start a new one from the
line. -/
def appendLineToChunk (chunks : List Str) (cc cl : Str) : List Str × Str :=
  if (cc ++ NL :: cl).length ≤ 2000 then
    (chunks, if cc = [] then cl else cc ++ NL :: cl)
  else (chunks ++ [cc], cl)

/-- The `for word in words` body (server.py lines 189-206), on the state
(chunks, current_chunk, current_line): extend the current line when
`current_line + " " + word` fits, else flush a non-empty current line into
the chunk and start the line from the word, else (empty line, over-long
word) truncate the word to 2000 characters. -/
def wordStep (st : List Str × Str × Str) (w : Str) : List Str × Str × Str :=
  let (chunks, cc, cl) := st
  if (cl ++ SP :: w).length ≤ 2000 then
    (chunks, cc, if cl = [] then w else cl ++ SP :: w)
  else if cl ≠ [] then
    let (chunks', cc') := appendLineToChunk chunks cc cl
    (chunks', cc', w)
  else (chunks, cc, w.take 2000)

/-- The `for line in lines` body (server.py lines 184-221): an over-long line
is split at spaces by the word loop and its trailing current line flushed
(server.py lines 207-214); a normal line is flushed directly. -/
def lineStep (st : List Str × Str) (line : Str) : List Str × Str :=
  let (chunks, cc) := st
  if 2000 < line.length then
    let (chunks1, cc1, cl1) := (pySplit SP line).foldl wordStep (chunks, cc, [])
    if cl1 ≠ [] then appendLineToChunk chunks1 cc1 cl1 else (chunks1, cc1)
  else appendLineToChunk chunks cc line

/-- The chunk computation of the `send_message` tool (server.py lines
176-224): content of at most 2000 characters is one chunk, longer content is
split at newlines, over-long lines at spaces, and the trailing chunk is
appended when non-empty. -/
def send_message_chunks (content : Str) : List Str :=
  if content.length ≤ 2000 then [content]
  else
    let (chunks, cc) := (pySplit NL content).foldl lineStep ([], [])
    if cc ≠ [] then chunks ++ [cc] else chunks

/-- A 4500-character, newline-free input containing a 3000-character word
between two short words. -/
def cexContent : Str :=
  List.replicate 10 'a' ++
    (SP :: (List.replicate 3000 'b' ++ (SP :: List.replicate 1488 'c')))

/-- A 4500-character, newline-free input whose space-separated words all stay
within the 2000-character limit. -/
def okContent : Str :=
  List.replicate 2000 'a' ++
    (SP :: (List.replicate 2000 'b' ++ (SP :: List.replicate 498 'c')))

/-- A sample extracted message used to instantiate the message-history
theorems. -/
def msgW : PyMsg := ⟨lit "3", lit "x", lit "a", 10⟩

/-! ## Helper lemmas -/

theorem swallow_eq_ok (e : Except Unit Unit) : swallow e = .ok () := by
  cases e <;> rfl

theorem nonWs_append (a b : Str) : nonWs (a ++ b) = nonWs a ++ nonWs b :=
  List.filter_append a b

theorem nonWs_nil : nonWs [] = [] := rfl

theorem nonWs_cons_of_ws {c : Char} (h : wsChar c = true) (s : Str) :
    nonWs (c :: s) = nonWs s := by
  simp [nonWs, List.filter_cons, h]

theorem nonWs_NL_cons (s : Str) : nonWs (NL :: s) = nonWs s :=
  nonWs_cons_of_ws (by decide) s

theorem nonWs_SP_cons (s : Str) : nonWs (SP :: s) = nonWs s :=
  nonWs_cons_of_ws (by decide) s

/-! ## C9: teardown never raises and attempts all four steps -/

/-- C9.  `close_client` never raises: for every session state and every
combination of per-resource close failures it returns normally, and its trace
shows all four close steps ran, in strict reverse-acquisition order (page,
context, browser, playwright); a step only enters the trace after its
swallowed close attempt completed, so the constant trace shows every later
step still runs after any failure. -/
theorem close_client_total (s : SessionResources) :
    close_client s = .ok [.page, .ctx, .browser, .playwright] := by
  simp [close_client, closeSeq, swallow_eq_ok]

/-! ## C7: context-window slicing is clamped and total -/

/-- C7.  The before/after window slicing of `get_search_result_context` is
clamped to the available range for every non-negative pair of counts and
every target index within the list: the before slice has exactly
`min before_count target_idx` entries and the after slice exactly
`min after_count (length - target_idx - 1)`; the function is total, so the
clamp never raises. -/
theorem context_slice_clamp {α : Type} (l : List α) (t bc ac : Nat)
    (h : t < l.length) :
    (context_slice l t bc ac).1.length = min bc t ∧
    (context_slice l t bc ac).2.2.length = min ac (l.length - t - 1) := by
  have h1 : (max 0 ((t : Int) - (bc : Int))).toNat = t - bc := by omega
  have h2 : (min ((l.length : Int)) ((t : Int) + (ac : Int) + 1)).toNat
      = min l.length (t + ac + 1) := by omega
  simp only [context_slice, pySlice, h1, h2, List.length_drop, List.length_take]
  omega

/-- Witness for C7: the spec's own instance — a rendered list of 8 messages,
target at index 4, `before_count = after_count = 5` — yields 4 messages
before and 3 after. -/
theorem context_slice_clamp_witness :
    (context_slice (List.range 8) 4 5 5).1.length = min 5 4 ∧
    (context_slice (List.range 8) 4 5 5).2.2.length = min 5 ((List.range 8).length - 4 - 1) :=
  context_slice_clamp (List.range 8) 4 5 5 (by decide)

/-! ## C4: the channel merge is idempotent and order-preserving -/

/-- C4.  The channel-list merge of `get_guild_channels` is idempotent and
order-preserving: merging the merged result with the browse set again yields
the same ordered list, and the merge equals the direct set in encounter order
followed by exactly those browse entries whose id is absent from the direct
set (so direct entries take precedence on shared ids). -/
theorem combine_channels_idempotent (d b : List RawChannel) :
    combine_channels (combine_channels d b) b = combine_channels d b ∧
    combine_channels d b =
      d ++ b.filter (fun ch => decide (ch.id ∉ d.map RawChannel.id)) := by
  refine ⟨?_, rfl⟩
  have key : ∀ ch ∈ b, ch.id ∈ directIds (combine_channels d b) := by
    intro ch hch
    by_cases hid : ch.id ∈ directIds d
    · simp only [combine_channels, directIds, List.map_append, List.mem_append]
      exact Or.inl hid
    · have hf : ch ∈ b.filter (fun ch => decide (ch.id ∉ directIds d)) :=
        List.mem_filter.2 ⟨hch, by simpa using hid⟩
      simp only [combine_channels, directIds, List.map_append, List.mem_append]
      exact Or.inr (List.mem_map.2 ⟨ch, hf, rfl⟩)
  have hnil : b.filter (fun ch => decide (ch.id ∉ directIds (combine_channels d b))) = [] := by
    rw [List.filter_eq_nil_iff]
    intro ch hch
    simpa using key ch hch
  calc combine_channels (combine_channels d b) b
      = combine_channels d b ++
          b.filter (fun ch => decide (ch.id ∉ directIds (combine_channels d b))) := rfl
    _ = combine_channels d b := by rw [hnil, List.append_nil]

/-! ## C8: page-navigation sub-protocol -/

theorem nextClickLoop_all_visible (pg : SearchPage)
    (hv : ∀ k, pg.nextVisible k = true) :
    ∀ rem c, nextClickLoop pg c rem = (true, List.replicate rem .clickNext) := by
  intro rem
  induction rem with
  | zero => intro c; rfl
  | succ n ih =>
    intro c
    simp [nextClickLoop, hv c, ih (c + 1), List.replicate_succ]

theorem nextClickLoop_fail (pg : SearchPage) :
    ∀ rem c, (∃ k, k < rem ∧ pg.nextVisible (c + k) = false) →
      (nextClickLoop pg c rem).1 = false := by
  intro rem
  induction rem with
  | zero =>
    rintro c ⟨k, hk, _⟩
    omega
  | succ n ih =>
    rintro c ⟨k, hk, hv⟩
    by_cases h : pg.nextVisible c
    · simp only [nextClickLoop, h, if_true]
      have hk0 : k ≠ 0 := by
        rintro rfl
        rw [Nat.add_zero] at hv
        rw [h] at hv
        exact absurd hv (by simp)
      have : pg.nextVisible (c + 1 + (k - 1)) = false := by
        have : c + 1 + (k - 1) = c + k := by omega
        rw [this]; exact hv
      exact ih (c + 1) ⟨k - 1, by omega, this⟩
    · simp [nextClickLoop, h]

/-- C8.  The page-navigation sub-protocol: with no direct `Page 3` button and
no ellipsis but an always-visible `Next` button, `target_page = 3` clicks
`Next` exactly twice (`target_page - 1` times) and reports success; if the
`Next` control disappears before the target page is reached it reports
failure; `target_page = 1` reports success with no page interaction at
all. -/
theorem navigate_to_search_page_spec (pg : SearchPage) :
    (pg.pageButtonVisible 3 = false → pg.ellipsisVisible = false →
      (∀ k, pg.nextVisible k = true) →
      navigate_to_search_page pg 3 = (true, [.clickNext, .clickNext])) ∧
    (∀ target, pg.pageButtonVisible target = false → pg.ellipsisVisible = false →
      (∃ k, k < target - 1 ∧ pg.nextVisible k = false) →
      (navigate_to_search_page pg target).1 = false) ∧
    navigate_to_search_page pg 1 = (true, []) := by
  refine ⟨?_, ?_, ?_⟩
  · intro h1 h2 hv
    simp [navigate_to_search_page, h1, h2, nextClickLoop_all_visible pg hv 2 0,
      List.replicate_succ]
  · intro target h1 h2 hex
    rcases hex with ⟨k, hk, hv⟩
    have ht : target ≠ 1 := by
      rintro rfl
      omega
    have hfail : (nextClickLoop pg 0 (target - 1)).1 = false :=
      nextClickLoop_fail pg (target - 1) 0 ⟨k, hk, by simpa using hv⟩
    simp [navigate_to_search_page, ht, h1, h2, hfail]
  · simp [navigate_to_search_page]

/-- Witness for C8: a page with no `Page N` button and no ellipsis where
`Next` is always visible gives exactly two `Next` clicks for page 3; one
where `Next` is never visible fails for page 3; page 1 never interacts. -/
theorem navigate_to_search_page_spec_witness :
    navigate_to_search_page ⟨fun _ => false, false, false, fun _ => true⟩ 3 =
      (true, [.clickNext, .clickNext]) ∧
    (navigate_to_search_page ⟨fun _ => false, false, false, fun _ => false⟩ 3).1 = false ∧
    navigate_to_search_page ⟨fun _ => false, false, false, fun _ => true⟩ 1 = (true, []) :=
  ⟨(navigate_to_search_page_spec _).1 rfl rfl (fun _ => rfl),
   (navigate_to_search_page_spec _).2.1 3 rfl rfl ⟨0, by decide, rfl⟩,
   (navigate_to_search_page_spec _).2.2⟩

/-! ## C5: guild extraction invariants -/

theorem guildsStep_inv (acc : List RawGuild) (item : TreeItem)
    (hpw : acc.Pairwise (fun g1 g2 => g1.id ≠ g2.id))
    (hdig : ∀ g ∈ acc, isDigits g.id = true) :
    (guildsStep acc item).Pairwise (fun g1 g2 => g1.id ≠ g2.id) ∧
    (∀ g ∈ guildsStep acc item, isDigits g.id = true) := by
  unfold guildsStep
  cases item.listItemId with
  | none => exact ⟨hpw, hdig⟩
  | some lid =>
    simp only
    split
    case isFalse => exact ⟨hpw, hdig⟩
    case isTrue =>
      split
      case isFalse => exact ⟨hpw, hdig⟩
      case isTrue hdigid =>
        split
        case isFalse => exact ⟨hpw, hdig⟩
        case isTrue hcond =>
          have hnew : ∀ g ∈ acc, g.id ≠ lid.drop (lit "guildsnav___").length := by
            intro g hg
            rw [Bool.and_eq_true] at hcond
            have hany := hcond.2
            rw [Bool.not_eq_true', List.any_eq_false] at hany
            have := hany g hg
            simpa using this
          constructor
          · rw [List.pairwise_append]
            refine ⟨hpw, by simp, ?_⟩
            intro g hg g' hg'
            rw [List.mem_singleton] at hg'
            subst hg'
            exact hnew g hg
          · intro g hg
            rcases List.mem_append.1 hg with hg | hg
            · exact hdig g hg
            · rw [List.mem_singleton] at hg
              subst hg
              exact hdigid

theorem guildsFold_inv (items : List TreeItem) :
    ∀ acc, acc.Pairwise (fun g1 g2 => g1.id ≠ g2.id) →
      (∀ g ∈ acc, isDigits g.id = true) →
      (items.foldl guildsStep acc).Pairwise (fun g1 g2 => g1.id ≠ g2.id) ∧
      (∀ g ∈ items.foldl guildsStep acc, isDigits g.id = true) := by
  induction items with
  | nil => exact fun acc hpw hdig => ⟨hpw, hdig⟩
  | cons item rest ih =>
    intro acc hpw hdig
    rw [List.foldl_cons]
    obtain ⟨h1, h2⟩ := guildsStep_inv acc item hpw hdig
    exact ih _ h1 h2

/-- C5.  For every DOM snapshot fed to the guild extraction script, no two
returned guild records share an identifier, every identifier is a non-empty
digit string (matches `^[0-9]+$`), and no returned record carries the home
pseudo-guild's identifier (the entry `guildsnav___home` is filtered out, and
`home` is not a digit string). -/
theorem get_guilds_invariants (items : List TreeItem) :
    (get_guilds_extract items).Pairwise (fun g1 g2 => g1.id ≠ g2.id) ∧
    (∀ g ∈ get_guilds_extract items, isDigits g.id = true) ∧
    (∀ g ∈ get_guilds_extract items, g.id ≠ lit "home") := by
  obtain ⟨hpw, hdig⟩ := guildsFold_inv items [] (by simp) (by simp)
  refine ⟨hpw, hdig, ?_⟩
  intro g hg heq
  have hd := hdig g hg
  rw [heq] at hd
  exact absurd hd (by decide)

/-! ## C6: search-result deduplication -/

/-- The composite key of a message assembled from a search result, matching
`contentKey` on the raw record it came from. -/
def msgKey (m : SearchMsg) : Str := m.author_name ++ ':' :: m.content.take 50

theorem searchBatchStep_inv (limit : Nat) :
    ∀ (rs : List RawResult) (msgs : List SearchMsg) (seen : List Str),
      (∀ m ∈ msgs, msgKey m ∈ seen) →
      msgs.Pairwise (fun a b => msgKey a ≠ msgKey b) →
      (∀ m ∈ (searchBatchStep limit rs msgs seen).1,
        msgKey m ∈ (searchBatchStep limit rs msgs seen).2) ∧
      (searchBatchStep limit rs msgs seen).1.Pairwise (fun a b => msgKey a ≠ msgKey b) := by
  intro rs
  induction rs with
  | nil => exact fun msgs seen h1 h2 => ⟨h1, h2⟩
  | cons r rest ih =>
    intro msgs seen h1 h2
    unfold searchBatchStep
    split
    · exact ⟨h1, h2⟩
    · split
      case isTrue hseen => exact ih msgs seen h1 h2
      case isFalse hseen =>
        apply ih
        · intro m hm
          rcases List.mem_append.1 hm with hm | hm
          · exact List.mem_append_left _ (h1 m hm)
          · rw [List.mem_singleton] at hm
            subst hm
            exact List.mem_append_right _ (by simp [msgKey, contentKey])
        · rw [List.pairwise_append]
          refine ⟨h2, by simp, ?_⟩
          intro a ha b hb
          rw [List.mem_singleton] at hb
          subst hb
          intro heq
          have hmem := h1 a ha
          rw [heq] at hmem
          exact hseen (by simpa [msgKey, contentKey] using hmem)

theorem searchLoop_inv (limit : Nat) (eval : Nat → List RawResult) :
    ∀ (fuel k : Nat) (msgs : List SearchMsg) (seen : List Str), 5 - k ≤ fuel →
      (∀ m ∈ msgs, msgKey m ∈ seen) →
      msgs.Pairwise (fun a b => msgKey a ≠ msgKey b) →
      (searchLoop limit eval k msgs seen).Pairwise (fun a b => msgKey a ≠ msgKey b) := by
  intro fuel
  induction fuel with
  | zero =>
    intro k msgs seen hf h1 h2
    rw [searchLoop]
    rw [dif_pos (Or.inr (by omega))]
    exact h2
  | succ n ih =>
    intro k msgs seen hf h1 h2
    rw [searchLoop]
    split
    · exact h2
    case isFalse hc =>
      obtain ⟨hmem, hpw⟩ := searchBatchStep_inv limit (eval k) msgs seen h1 h2
      rcases hsb : searchBatchStep limit (eval k) msgs seen with ⟨msgs', seen'⟩
      rw [hsb] at hmem hpw
      simp only [hsb]
      split
      · exact hpw
      · exact ih (k + 1) msgs' seen' (by omega) hmem hpw

/-- C6.  No two results returned by `search_messages` share the composite
key of author plus the first 50 characters of content: for every sequence of
scraped batches (any scrape order), two records agreeing on author and
first-50-characters of content collapse to a single returned entry. -/
theorem search_messages_dedup (limit : Nat) (eval : Nat → List RawResult) :
    (search_messages_result limit eval).Pairwise
      (fun m1 m2 => ¬(m1.author_name = m2.author_name ∧
        m1.content.take 50 = m2.content.take 50)) := by
  have hpw := searchLoop_inv limit eval 5 0 [] [] (by omega) (by simp) (by simp)
  have hsub : (search_messages_result limit eval).Pairwise
      (fun a b => msgKey a ≠ msgKey b) :=
    List.Pairwise.sublist (List.take_sublist limit _) hpw
  refine hsub.imp ?_
  rintro a b hk ⟨hauth, hcont⟩
  exact hk (by rw [msgKey, msgKey, hauth, hcont])

/-! ## C10: every returned channel has a non-empty name -/

theorem extract_channels_names (gid : Str) (links : List RawLink) :
    ∀ ch ∈ extract_channels gid links, ch.name ≠ [] := by
  suffices h : ∀ (ls : List RawLink) (acc : List RawChannel × List Str),
      (∀ ch ∈ acc.1, ch.name ≠ []) →
      ∀ ch ∈ (ls.foldl (extractChannelStep (lit "/channels/" ++ gid ++ ['/'])) acc).1,
        ch.name ≠ [] by
    exact h links ([], []) (by simp)
  intro ls
  induction ls with
  | nil => exact fun acc h => h
  | cons l rest ih =>
    intro acc h
    rw [List.foldl_cons]
    apply ih
    unfold extractChannelStep
    cases findChannelId (lit "/channels/" ++ gid ++ ['/']) l.href with
    | none => exact h
    | some cid =>
      simp only
      split
      · exact h
      · intro ch hch
        rcases List.mem_append.1 hch with hch | hch
        · exact h ch hch
        · rw [List.mem_singleton] at hch
          subst hch
          simp only
          split
          · intro heq
            have hlen : (lit "channel-" ++ cid).length = 0 := by rw [heq]; rfl
            rw [List.length_append] at hlen
            have : (lit "channel-").length = 0 := by omega
            exact absurd this (by decide)
          · assumption

/-- C10.  Every channel returned by `get_guild_channels` has a non-empty
name: when a channel link's cleaned text is empty the extraction script
synthesizes `channel-<id>`, so no returned `DiscordChannel` has an empty
name, across both discovery passes and their merge. -/
theorem get_guild_channels_nonempty_names (gid : Str)
    (directLinks browseLinks : List RawLink) :
    ∀ c ∈ get_guild_channels_model gid directLinks browseLinks, c.name ≠ [] := by
  intro c hc
  unfold get_guild_channels_model at hc
  rw [List.mem_map] at hc
  obtain ⟨ch, hch, rfl⟩ := hc
  simp only
  unfold combine_channels at hch
  rcases List.mem_append.1 hch with h | h
  · exact extract_channels_names gid directLinks ch h
  · exact extract_channels_names gid browseLinks ch (List.mem_of_mem_filter h)

/-- Witness for C10: a single channel link with blank text produces the
synthesized name `channel-456`, which is non-empty. -/
theorem get_guild_channels_nonempty_names_witness :
    (⟨lit "456", lit "channel-456", 0, some (lit "123")⟩ : DiscordChannel).name ≠ [] :=
  get_guild_channels_nonempty_names (lit "123")
    [⟨lit "https://discord.com/channels/123/456", lit " "⟩] []
    ⟨lit "456", lit "channel-456", 0, some (lit "123")⟩ (by decide)

/-! ## C2 and C3: channel message history -/

theorem innerWalk_cons (limit : Nat) (before after : Option Str)
    (e : Option PyMsg) (rest : List (Option PyMsg)) (msgs : List PyMsg)
    (seen : List Str) :
    innerWalk limit before after (e :: rest) msgs seen =
      if limit ≤ msgs.length then (msgs, seen)
      else
        match e with
        | none => innerWalk limit before after rest msgs seen
        | some m =>
          if m.id ∈ seen then innerWalk limit before after rest msgs seen
          else if beforeSkip before m.id then innerWalk limit before after rest msgs seen
          else if afterSkip after m.id then innerWalk limit before after rest msgs seen
          else innerWalk limit before after rest (msgs ++ [m]) (seen ++ [m.id]) := rfl

theorem innerWalk_mem (limit : Nat) (before after : Option Str) :
    ∀ (es : List (Option PyMsg)) (msgs : List PyMsg) (seen : List Str) (m : PyMsg),
      m ∈ (innerWalk limit before after es msgs seen).1 →
      m ∈ msgs ∨ (beforeSkip before m.id = false ∧ afterSkip after m.id = false) := by
  intro es
  induction es with
  | nil => exact fun msgs seen m hm => Or.inl hm
  | cons e rest ih =>
    intro msgs seen m hm
    rw [innerWalk_cons] at hm
    split at hm
    · exact Or.inl hm
    · cases e with
      | none => exact ih msgs seen m hm
      | some m0 =>
        simp only at hm
        split at hm
        · exact ih msgs seen m hm
        · split at hm
          · exact ih msgs seen m hm
          · split at hm
            · exact ih msgs seen m hm
            case isFalse hbef haft =>
              rcases ih _ _ m hm with hin | hpass
              · rcases List.mem_append.1 hin with hin | hin
                · exact Or.inl hin
                · rw [List.mem_singleton] at hin
                  subst hin
                  exact Or.inr ⟨Bool.not_eq_true _ ▸ Bool.of_not_eq_true hbef,
                    Bool.not_eq_true _ ▸ Bool.of_not_eq_true haft⟩
              · exact Or.inr hpass

theorem messagesLoop_mem (limit : Nat) (before after : Option Str) :
    ∀ (snaps : List (List (Option PyMsg))) (msgs : List PyMsg) (seen : List Str) (m : PyMsg),
      m ∈ messagesLoop limit before after snaps msgs seen →
      m ∈ msgs ∨ (beforeSkip before m.id = false ∧ afterSkip after m.id = false) := by
  intro snaps
  induction snaps with
  | nil => exact fun msgs seen m hm => Or.inl hm
  | cons elems rest ih =>
    intro msgs seen m hm
    rw [messagesLoop] at hm
    split at hm
    · exact ih msgs seen m hm
    · rcases hiw : innerWalk limit before after elems.reverse msgs seen with ⟨msgs', seen'⟩
      rw [hiw] at hm
      simp only at hm
      split at hm
      · have := innerWalk_mem limit before after elems.reverse msgs seen m
        rw [hiw] at this
        exact this hm
      · rcases ih msgs' seen' m hm with hin | hpass
        · have := innerWalk_mem limit before after elems.reverse msgs seen m
          rw [hiw] at this
          exact this hin
        · exact Or.inr hpass

theorem mem_insertByTsDesc {a m : PyMsg} :
    ∀ l, a ∈ insertByTsDesc m l → a = m ∨ a ∈ l := by
  intro l
  induction l with
  | nil => simp [insertByTsDesc]
  | cons x xs ih =>
    intro ha
    rw [insertByTsDesc] at ha
    split at ha
    · rcases List.mem_cons.1 ha with h | h
      · exact Or.inl h
      · exact Or.inr h
    · rcases List.mem_cons.1 ha with h | h
      · exact Or.inr (h ▸ List.mem_cons_self x xs)
      · rcases ih h with h | h
        · exact Or.inl h
        · exact Or.inr (List.mem_cons_of_mem x h)

theorem mem_pySortByTsDesc {a : PyMsg} :
    ∀ l, a ∈ pySortByTsDesc l → a ∈ l := by
  intro l
  induction l with
  | nil => simp [pySortByTsDesc]
  | cons x xs ih =>
    intro ha
    rcases mem_insertByTsDesc _ ha with h | h
    · exact h ▸ List.mem_cons_self x xs
    · exact List.mem_cons_of_mem x (ih h)

theorem pairwise_insertByTsDesc (m : PyMsg) :
    ∀ l, l.Pairwise (fun x y => y.timestamp ≤ x.timestamp) →
      (insertByTsDesc m l).Pairwise (fun x y => y.timestamp ≤ x.timestamp) := by
  intro l
  induction l with
  | nil => simp [insertByTsDesc]
  | cons x xs ih =>
    intro h
    rw [List.pairwise_cons] at h
    obtain ⟨hx, hxs⟩ := h
    rw [insertByTsDesc]
    split
    case isTrue hc =>
      rw [List.pairwise_cons]
      refine ⟨?_, List.pairwise_cons.2 ⟨hx, hxs⟩⟩
      intro y hy
      rcases List.mem_cons.1 hy with h | h
      · exact h ▸ hc
      · exact le_trans (hx y h) hc
    case isFalse hc =>
      rw [List.pairwise_cons]
      refine ⟨?_, ih hxs⟩
      intro y hy
      rcases mem_insertByTsDesc _ hy with h | h
      · subst h
        omega
      · exact hx y h

theorem pairwise_pySortByTsDesc :
    ∀ l, (pySortByTsDesc l).Pairwise (fun x y => y.timestamp ≤ x.timestamp) := by
  intro l
  induction l with
  | nil => simp [pySortByTsDesc]
  | cons x xs ih => exact pairwise_insertByTsDesc x _ ih

/-- C2.  For every call to `get_channel_messages` with a non-empty `before`
bound B every returned message's id is strictly below B in lexicographic
string comparison; symmetrically, with a non-empty `after` bound A every
returned id is strictly above A. -/
theorem get_channel_messages_bounds (limit : Nat) (before after : Option Str)
    (snapshots : List (List (Option PyMsg))) :
    (∀ b, before = some b → b ≠ [] →
      ∀ m ∈ get_channel_messages_result limit before after snapshots,
        pyStrLt m.id b = true) ∧
    (∀ a, after = some a → a ≠ [] →
      ∀ m ∈ get_channel_messages_result limit before after snapshots,
        pyStrLt a m.id = true) := by
  have hcore : ∀ m ∈ get_channel_messages_result limit before after snapshots,
      beforeSkip before m.id = false ∧ afterSkip after m.id = false := by
    intro m hm
    have hm1 : m ∈ pySortByTsDesc
        (messagesLoop limit before after (snapshots.take 10) [] []) :=
      List.take_subset limit _ hm
    have hm2 := mem_pySortByTsDesc _ hm1
    rcases messagesLoop_mem limit before after (snapshots.take 10) [] [] m hm2 with h | h
    · exact absurd h (List.not_mem_nil m)
    · exact h
  constructor
  · rintro b rfl hb m hm
    have hsk := (hcore m hm).1
    rw [beforeSkip] at hsk
    have hne : b.isEmpty = false := by
      cases b
      · exact absurd rfl hb
      · rfl
    rw [hne] at hsk
    simpa using hsk
  · rintro a rfl ha m hm
    have hsk := (hcore m hm).2
    rw [afterSkip] at hsk
    have hne : a.isEmpty = false := by
      cases a
      · exact absurd rfl ha
      · rfl
    rw [hne] at hsk
    simpa using hsk

/-- Witness for C2: one snapshot with a single extracted message of id `3`,
bounds `before = "5"` and `after = "2"`; the returned message's id is
strictly between the bounds. -/
theorem get_channel_messages_bounds_witness :
    pyStrLt msgW.id (lit "5") = true ∧ pyStrLt (lit "2") msgW.id = true :=
  ⟨(get_channel_messages_bounds 5 (some (lit "5")) (some (lit "2")) [[some msgW]]).1
      (lit "5") rfl (by decide) msgW (by decide),
   (get_channel_messages_bounds 5 (some (lit "5")) (some (lit "2")) [[some msgW]]).2
      (lit "2") rfl (by decide) msgW (by decide)⟩

/-- C3.  For every call to `get_channel_messages` with a limit in 1..1000 the
returned list is sorted by timestamp in descending order and has length at
most `limit`. -/
theorem get_channel_messages_sorted_limit (limit : Nat)
    (h1 : 1 ≤ limit) (h2 : limit ≤ 1000) (before after : Option Str)
    (snapshots : List (List (Option PyMsg))) :
    (get_channel_messages_result limit before after snapshots).Pairwise
      (fun x y => y.timestamp ≤ x.timestamp) ∧
    (get_channel_messages_result limit before after snapshots).length ≤ limit := by
  constructor
  · exact List.Pairwise.sublist (List.take_sublist limit _) (pairwise_pySortByTsDesc _)
  · rw [get_channel_messages_result, List.length_take]
    omega

/-- Witness for C3: limit 5 on a snapshot with two messages in ascending
timestamp order; the result is descending and within the limit. -/
theorem get_channel_messages_sorted_limit_witness :
    (get_channel_messages_result 5 none none
        [[some msgW, some ⟨lit "7", lit "y", lit "b", 20⟩]]).Pairwise
      (fun x y => y.timestamp ≤ x.timestamp) ∧
    (get_channel_messages_result 5 none none
        [[some msgW, some ⟨lit "7", lit "y", lit "b", 20⟩]]).length ≤ 5 :=
  get_channel_messages_sorted_limit 5 (by decide) (by decide) none none
    [[some msgW, some ⟨lit "7", lit "y", lit "b", 20⟩]]

/-! ## C1: send-message chunking -/

theorem nonWs_cons_not_ws {c : Char} (h : wsChar c = false) (s : Str) :
    nonWs (c :: s) = c :: nonWs s := by
  simp [nonWs, List.filter_cons, h]

theorem pySplitNE_no_sep {sep : Char} :
    ∀ s : Str, sep ∉ s → pySplitNE sep s = (s, []) := by
  intro s
  induction s with
  | nil => intro; rfl
  | cons c rest ih =>
    intro h
    rw [pySplitNE, ih (fun hc => h (List.mem_cons_of_mem c hc))]
    simp only
    rw [if_neg (fun heq : c = sep => h (by rw [← heq]; exact List.mem_cons_self c rest))]

theorem pySplit_no_sep {sep : Char} (s : Str) (h : sep ∉ s) :
    pySplit sep s = [s] := by
  rw [pySplit, pySplitNE_no_sep s h]

theorem nonWs_pySplitNE {sep : Char} (hsep : wsChar sep = true) :
    ∀ s : Str,
      nonWs ((pySplitNE sep s).1 ++ ((pySplitNE sep s).2).flatten) = nonWs s := by
  intro s
  induction s with
  | nil => rfl
  | cons c rest ih =>
    rw [pySplitNE]
    rcases hp : pySplitNE sep rest with ⟨h, t⟩
    rw [hp] at ih
    simp only at ih ⊢
    by_cases hc : c = sep
    · rw [if_pos hc]
      simp only [List.nil_append, List.flatten_cons]
      subst hc
      rw [nonWs_cons_of_ws hsep]
      exact ih
    · rw [if_neg hc]
      simp only [List.cons_append]
      by_cases hw : wsChar c
      · rw [nonWs_cons_of_ws hw, nonWs_cons_of_ws hw]
        exact ih
      · rw [nonWs_cons_not_ws (Bool.of_not_eq_true hw),
          nonWs_cons_not_ws (Bool.of_not_eq_true hw), ih]

theorem nonWs_pySplit {sep : Char} (hsep : wsChar sep = true) (s : Str) :
    nonWs ((pySplit sep s).flatten) = nonWs s := by
  rw [pySplit]
  rcases hp : pySplitNE sep s with ⟨h, t⟩
  have := nonWs_pySplitNE hsep s
  rw [hp] at this
  simpa [List.flatten_cons] using this

theorem appendLineToChunk_spec (chunks : List Str) (cc cl : Str)
    (hch : ∀ c ∈ chunks, c.length ≤ 2000) (hcc : cc.length ≤ 2000)
    (hcl : cl.length ≤ 2000) :
    (∀ c ∈ (appendLineToChunk chunks cc cl).1, c.length ≤ 2000) ∧
    (appendLineToChunk chunks cc cl).2.length ≤ 2000 ∧
    nonWs ((appendLineToChunk chunks cc cl).1.flatten ++
        (appendLineToChunk chunks cc cl).2) =
      nonWs (chunks.flatten ++ (cc ++ cl)) := by
  rw [appendLineToChunk]
  split
  case isTrue hle =>
    refine ⟨hch, ?_, ?_⟩
    · split
      case isTrue => exact hcl
      case isFalse => exact hle
    · split
      case isTrue hcc0 =>
        subst hcc0
        simp [nonWs_append]
      case isFalse =>
        simp [nonWs_append, nonWs_NL_cons, List.append_assoc]
  case isFalse =>
    refine ⟨?_, hcl, ?_⟩
    · intro c hc
      rcases List.mem_append.1 hc with h | h
      · exact hch c h
      · rw [List.mem_singleton] at h
        subst h
        exact hcc
    · simp [List.flatten_append, nonWs_append, List.append_assoc]

theorem wordFold_spec :
    ∀ (words : List Str) (chunks : List Str) (cc cl : Str),
      (∀ w ∈ words, w.length ≤ 2000) →
      (∀ c ∈ chunks, c.length ≤ 2000) → cc.length ≤ 2000 → cl.length ≤ 2000 →
      (∀ c ∈ (words.foldl wordStep (chunks, cc, cl)).1, c.length ≤ 2000) ∧
      (words.foldl wordStep (chunks, cc, cl)).2.1.length ≤ 2000 ∧
      (words.foldl wordStep (chunks, cc, cl)).2.2.length ≤ 2000 ∧
      nonWs ((words.foldl wordStep (chunks, cc, cl)).1.flatten ++
          ((words.foldl wordStep (chunks, cc, cl)).2.1 ++
            (words.foldl wordStep (chunks, cc, cl)).2.2)) =
        nonWs (chunks.flatten ++ (cc ++ cl)) ++ nonWs words.flatten := by
  intro words
  induction words with
  | nil =>
    intro chunks cc cl _ hch hcc hcl
    refine ⟨hch, hcc, hcl, ?_⟩
    simp [nonWs_append, nonWs]
  | cons w ws ih =>
    intro chunks cc cl hw hch hcc hcl
    have hwlen : w.length ≤ 2000 := hw w (List.mem_cons_self w ws)
    have hws : ∀ x ∈ ws, x.length ≤ 2000 :=
      fun x hx => hw x (List.mem_cons_of_mem w hx)
    rw [List.foldl_cons, wordStep]
    simp only
    split
    case isTrue hfit =>
      have hcl' : (if cl = [] then w else cl ++ SP :: w).length ≤ 2000 := by
        split
        · exact hwlen
        · exact hfit
      obtain ⟨a, b, c, d⟩ := ih chunks cc _ hws hch hcc hcl'
      refine ⟨a, b, c, ?_⟩
      rw [d]
      by_cases hcl0 : cl = [] <;>
        simp [hcl0, nonWs_append, nonWs_SP_cons, List.flatten_cons, List.append_assoc]
    case isFalse hfit =>
      split
      case isTrue hclne =>
        rcases halc : appendLineToChunk chunks cc cl with ⟨ch', cc'⟩
        obtain ⟨s1, s2, s3⟩ := appendLineToChunk_spec chunks cc cl hch hcc hcl
        rw [halc] at s1 s2 s3
        dsimp only at s1 s2 s3 ⊢
        obtain ⟨a, b, c, d⟩ := ih ch' cc' w hws s1 s2 hwlen
        refine ⟨a, b, c, ?_⟩
        rw [d]
        have hstep : nonWs (ch'.flatten ++ (cc' ++ w)) =
            nonWs (chunks.flatten ++ (cc ++ cl)) ++ nonWs w := by
          rw [← List.append_assoc, nonWs_append, s3]
        rw [hstep]
        simp [nonWs_append, List.flatten_cons, List.append_assoc]
      case isFalse hcle =>
        have hcl0 : cl = [] := by
          by_contra hne
          exact hcle hne
        subst hcl0
        have hwe : w.length = 2000 := by
          simp only [List.nil_append, List.length_cons] at hfit
          omega
        rw [List.take_of_length_le (by omega)]
        obtain ⟨a, b, c, d⟩ := ih chunks cc w hws hch hcc hwlen
        refine ⟨a, b, c, ?_⟩
        rw [d]
        simp [nonWs_append, List.flatten_cons, List.append_assoc]

theorem pySplitNE_sep_cons (sep : Char) (s : Str) :
    pySplitNE sep (sep :: s) = ([], (pySplitNE sep s).1 :: (pySplitNE sep s).2) := by
  rw [pySplitNE]
  rcases hp : pySplitNE sep s with ⟨h, t⟩
  simp

theorem pySplitNE_no_sep_append {sep : Char} :
    ∀ t : Str, sep ∉ t → ∀ s : Str,
      pySplitNE sep (t ++ s) = (t ++ (pySplitNE sep s).1, (pySplitNE sep s).2) := by
  intro t
  induction t with
  | nil => intro _ s; simp
  | cons c rest ih =>
    intro ht s
    rw [List.cons_append, pySplitNE, ih (fun hm => ht (List.mem_cons_of_mem c hm)) s]
    simp only
    rw [if_neg (fun heq : c = sep => ht (by rw [← heq]; exact List.mem_cons_self c rest))]
    simp

theorem pySplit_three (A B C : Str) (hA : SP ∉ A) (hB : SP ∉ B) (hC : SP ∉ C) :
    pySplit SP (A ++ SP :: (B ++ SP :: C)) = [A, B, C] := by
  rw [pySplit, pySplitNE_no_sep_append A hA, pySplitNE_sep_cons,
    pySplitNE_no_sep_append B hB, pySplitNE_sep_cons, pySplitNE_no_sep C hC]
  simp

theorem replicate_char_ne_nil {n : Nat} (hn : n ≠ 0) (c : Char) :
    List.replicate n c ≠ [] := by
  cases n with
  | zero => exact absurd rfl hn
  | succ m => simp [List.replicate_succ]

theorem wordStep_fit (chunks : List Str) (cc cl w : Str)
    (h : (cl ++ SP :: w).length ≤ 2000) :
    wordStep (chunks, cc, cl) w = (chunks, cc, if cl = [] then w else cl ++ SP :: w) := by
  rw [wordStep]
  simp only
  rw [if_pos h]

theorem wordStep_flush (chunks : List Str) (cc cl w : Str)
    (h : ¬(cl ++ SP :: w).length ≤ 2000) (hcl : cl ≠ []) :
    wordStep (chunks, cc, cl) w =
      ((appendLineToChunk chunks cc cl).1, (appendLineToChunk chunks cc cl).2, w) := by
  rw [wordStep]
  simp only
  rw [if_neg h, if_pos hcl]

theorem appendLineToChunk_small (chunks : List Str) (cc cl : Str)
    (h : (cc ++ NL :: cl).length ≤ 2000) :
    appendLineToChunk chunks cc cl =
      (chunks, if cc = [] then cl else cc ++ NL :: cl) := by
  rw [appendLineToChunk, if_pos h]

theorem appendLineToChunk_big (chunks : List Str) (cc cl : Str)
    (h : ¬(cc ++ NL :: cl).length ≤ 2000) :
    appendLineToChunk chunks cc cl = (chunks ++ [cc], cl) := by
  rw [appendLineToChunk, if_neg h]

theorem cexContent_len : cexContent.length = 4500 := by
  rw [cexContent]
  simp only [List.length_append, List.length_cons, List.length_replicate]

theorem cexContent_no_newline : NL ∉ cexContent := by
  rw [cexContent]
  intro hm
  rcases List.mem_append.1 hm with h | h
  · exact absurd (List.eq_of_mem_replicate h) (by decide)
  · rcases List.mem_cons.1 h with h | h
    · exact absurd h (by decide)
    · rcases List.mem_append.1 h with h | h
      · exact absurd (List.eq_of_mem_replicate h) (by decide)
      · rcases List.mem_cons.1 h with h | h
        · exact absurd h (by decide)
        · exact absurd (List.eq_of_mem_replicate h) (by decide)

/-- Symbolic run of the chunking code on `cexContent`: the 3000-character
word is carried into `current_line` past the flush (no truncation happens
there) and later becomes a chunk of its own. -/
theorem send_message_chunks_cex_eval :
    send_message_chunks cexContent =
      [List.replicate 10 'a', List.replicate 3000 'b', List.replicate 1488 'c'] := by
  have hA : SP ∉ List.replicate 10 'a' :=
    fun hm => absurd (List.eq_of_mem_replicate hm) (by decide)
  have hB : SP ∉ List.replicate 3000 'b' :=
    fun hm => absurd (List.eq_of_mem_replicate hm) (by decide)
  have hC : SP ∉ List.replicate 1488 'c' :=
    fun hm => absurd (List.eq_of_mem_replicate hm) (by decide)
  have hlen := cexContent_len
  have hAne : List.replicate 10 'a' ≠ ([] : Str) := replicate_char_ne_nil (by omega) 'a'
  have hBne : List.replicate 3000 'b' ≠ ([] : Str) := replicate_char_ne_nil (by omega) 'b'
  have hCne : List.replicate 1488 'c' ≠ ([] : Str) := replicate_char_ne_nil (by omega) 'c'
  have e1 : wordStep ([], [], []) (List.replicate 10 'a') =
      ([], [], List.replicate 10 'a') := by
    rw [wordStep_fit _ _ _ _ (by simp only [List.length_append, List.length_cons, List.length_replicate, List.nil_append]; omega)]
    rw [if_pos rfl]
  have eac : appendLineToChunk [] [] (List.replicate 10 'a') =
      ([], List.replicate 10 'a') := by
    rw [appendLineToChunk_small _ _ _ (by simp only [List.length_append, List.length_cons, List.length_replicate, List.nil_append]; omega)]
    rw [if_pos rfl]
  have e2 : wordStep ([], [], List.replicate 10 'a') (List.replicate 3000 'b') =
      ([], List.replicate 10 'a', List.replicate 3000 'b') := by
    rw [wordStep_flush _ _ _ _ (by simp only [List.length_append, List.length_cons, List.length_replicate, List.nil_append]; omega) hAne,
      eac]
  have ebc : appendLineToChunk [] (List.replicate 10 'a') (List.replicate 3000 'b') =
      ([List.replicate 10 'a'], List.replicate 3000 'b') := by
    rw [appendLineToChunk_big _ _ _ (by simp only [List.length_append, List.length_cons, List.length_replicate, List.nil_append]; omega)]
    rfl
  have e3 : wordStep ([], List.replicate 10 'a', List.replicate 3000 'b')
      (List.replicate 1488 'c') =
      ([List.replicate 10 'a'], List.replicate 3000 'b', List.replicate 1488 'c') := by
    rw [wordStep_flush _ _ _ _ (by simp only [List.length_append, List.length_cons, List.length_replicate, List.nil_append]; omega) hBne,
      ebc]
  have e4 : appendLineToChunk [List.replicate 10 'a'] (List.replicate 3000 'b')
      (List.replicate 1488 'c') =
      ([List.replicate 10 'a', List.replicate 3000 'b'], List.replicate 1488 'c') := by
    rw [appendLineToChunk_big _ _ _ (by simp only [List.length_append, List.length_cons, List.length_replicate, List.nil_append]; omega)]
    rfl
  have el : lineStep ([], []) cexContent =
      ([List.replicate 10 'a', List.replicate 3000 'b'], List.replicate 1488 'c') := by
    rw [lineStep]
    dsimp only
    rw [if_pos (by omega)]
    rw [show pySplit SP cexContent =
        [List.replicate 10 'a', List.replicate 3000 'b', List.replicate 1488 'c'] from
      pySplit_three _ _ _ hA hB hC]
    rw [List.foldl_cons, e1, List.foldl_cons, e2, List.foldl_cons, e3, List.foldl_nil]
    dsimp only
    rw [if_pos hCne, e4]
  rw [send_message_chunks, if_neg (by omega),
    pySplit_no_sep cexContent cexContent_no_newline,
    List.foldl_cons, List.foldl_nil, el]
  dsimp only
  rw [if_pos hCne]
  rfl

/-- Counterexample refuting C1 as stated: `cexContent` is a 4500-character
input with no newline, yet one of its chunks has 3000 characters. -/
theorem send_message_chunking_cex :
    cexContent.length = 4500 ∧ NL ∉ cexContent ∧
    ¬(∀ c ∈ send_message_chunks cexContent, c.length ≤ 2000) := by
  refine ⟨cexContent_len, cexContent_no_newline, ?_⟩
  intro hall
  have hb := hall (List.replicate 3000 'b') (by rw [send_message_chunks_cex_eval]; exact List.mem_cons_of_mem _ (List.mem_cons_self _ _))
  rw [List.length_replicate] at hb
  omega

/-- C1 (amended).  Any 4500-character input containing no newline characters
and whose space-separated words each have length at most 2000 is split into
chunks of length at most 2000 whose concatenation reproduces all
non-whitespace content of the input; and any input of length at most 2000
(in particular exactly 2000) yields exactly one chunk equal to the input. -/
theorem send_message_chunking_amended (content : Str) :
    (content.length = 4500 → NL ∉ content →
      (∀ w ∈ pySplit SP content, w.length ≤ 2000) →
      (∀ c ∈ send_message_chunks content, c.length ≤ 2000) ∧
      nonWs (send_message_chunks content).flatten = nonWs content) ∧
    (∀ s : Str, s.length ≤ 2000 → send_message_chunks s = [s]) := by
  constructor
  · intro hlen hnl hwords
    rcases hst : (pySplit SP content).foldl wordStep ([], [], []) with ⟨ch1, cc1, cl1⟩
    obtain ⟨a, b, c, d⟩ :=
      wordFold_spec (pySplit SP content) [] [] [] hwords (by simp) (by simp) (by simp)
    rw [hst] at a b c d
    dsimp only at a b c d
    rw [nonWs_pySplit (by decide) content] at d
    simp only [List.flatten_nil, List.nil_append, nonWs_nil] at d
    -- d : nonWs (ch1.flatten ++ (cc1 ++ cl1)) = nonWs content
    by_cases hcl1 : cl1 = []
    · subst hcl1
      rw [List.append_nil] at d
      have el : lineStep ([], []) content = (ch1, cc1) := by
        rw [lineStep]
        dsimp only
        rw [if_pos (by omega), hst]
        dsimp only
        rw [if_neg (fun h => h rfl)]
      by_cases hcc1 : cc1 = []
      · subst hcc1
        have hchunks : send_message_chunks content = ch1 := by
          rw [send_message_chunks, if_neg (by omega), pySplit_no_sep content hnl,
            List.foldl_cons, List.foldl_nil, el]
          dsimp only
          rw [if_neg (fun h => h rfl)]
        rw [hchunks]
        rw [List.append_nil] at d
        exact ⟨a, d⟩
      · have hchunks : send_message_chunks content = ch1 ++ [cc1] := by
          rw [send_message_chunks, if_neg (by omega), pySplit_no_sep content hnl,
            List.foldl_cons, List.foldl_nil, el]
          dsimp only
          rw [if_pos hcc1]
        rw [hchunks]
        constructor
        · intro x hx
          rcases List.mem_append.1 hx with h | h
          · exact a x h
          · rw [List.mem_singleton] at h
            subst h
            exact b
        · rw [List.flatten_append]
          simp only [List.flatten_cons, List.flatten_nil, List.append_nil]
          exact d
    · rcases halc : appendLineToChunk ch1 cc1 cl1 with ⟨ch2, cc2⟩
      obtain ⟨s1, s2, s3⟩ := appendLineToChunk_spec ch1 cc1 cl1 a b c
      rw [halc] at s1 s2 s3
      dsimp only at s1 s2 s3
      rw [d] at s3
      -- s3 : nonWs (ch2.flatten ++ cc2) = nonWs content
      have el : lineStep ([], []) content = (ch2, cc2) := by
        rw [lineStep]
        dsimp only
        rw [if_pos (by omega), hst]
        dsimp only
        rw [if_pos hcl1, halc]
      by_cases hcc2 : cc2 = []
      · subst hcc2
        have hchunks : send_message_chunks content = ch2 := by
          rw [send_message_chunks, if_neg (by omega), pySplit_no_sep content hnl,
            List.foldl_cons, List.foldl_nil, el]
          dsimp only
          rw [if_neg (fun h => h rfl)]
        rw [hchunks]
        rw [List.append_nil] at s3
        exact ⟨s1, s3⟩
      · have hchunks : send_message_chunks content = ch2 ++ [cc2] := by
          rw [send_message_chunks, if_neg (by omega), pySplit_no_sep content hnl,
            List.foldl_cons, List.foldl_nil, el]
          dsimp only
          rw [if_pos hcc2]
        rw [hchunks]
        constructor
        · intro x hx
          rcases List.mem_append.1 hx with h | h
          · exact s1 x h
          · rw [List.mem_singleton] at h
            subst h
            exact s2
        · rw [List.flatten_append]
          simp only [List.flatten_cons, List.flatten_nil, List.append_nil]
          exact s3
  · intro s hs
    rw [send_message_chunks, if_pos hs]

theorem okContent_len : okContent.length = 4500 := by
  rw [okContent]
  simp only [List.length_append, List.length_cons, List.length_replicate]

theorem okContent_no_newline : NL ∉ okContent := by
  rw [okContent]
  intro hm
  rcases List.mem_append.1 hm with h | h
  · exact absurd (List.eq_of_mem_replicate h) (by decide)
  · rcases List.mem_cons.1 h with h | h
    · exact absurd h (by decide)
    · rcases List.mem_append.1 h with h | h
      · exact absurd (List.eq_of_mem_replicate h) (by decide)
      · rcases List.mem_cons.1 h with h | h
        · exact absurd h (by decide)
        · exact absurd (List.eq_of_mem_replicate h) (by decide)

theorem okContent_words : ∀ w ∈ pySplit SP okContent, w.length ≤ 2000 := by
  rw [okContent, pySplit_three _ _ _
    (fun hm => absurd (List.eq_of_mem_replicate hm) (by decide))
    (fun hm => absurd (List.eq_of_mem_replicate hm) (by decide))
    (fun hm => absurd (List.eq_of_mem_replicate hm) (by decide))]
  intro w hw
  rcases List.mem_cons.1 hw with h | h
  · rw [h, List.length_replicate]
  · rcases List.mem_cons.1 h with h | h
    · rw [h, List.length_replicate]
    · rcases List.mem_cons.1 h with h | h
      · rw [h, List.length_replicate]; omega
      · exact absurd h (List.not_mem_nil w)

/-- Witness for C1: a concrete 4500-character, newline-free input whose
words are 2000, 2000 and 498 characters long satisfies the amended
statement, and a short input is returned as a single chunk. -/
theorem send_message_chunking_amended_witness :
    ((∀ c ∈ send_message_chunks okContent, c.length ≤ 2000) ∧
      nonWs (send_message_chunks okContent).flatten = nonWs okContent) ∧
    send_message_chunks (lit "ok") = [lit "ok"] :=
  ⟨(send_message_chunking_amended okContent).1 okContent_len okContent_no_newline
      okContent_words,
   (send_message_chunking_amended okContent).2 (lit "ok") (by decide)⟩

end Discord
